import Mathlib

/-!
Verification development for the spreadflow-core execution engine.

The Python sources are shallowly embedded: the priority-keyed listener
registry of `spreadflow_core/eventdispatcher.py` becomes a state record
with executable `add_listener` / `remove_listener` / `get_listeners`
operations (including the `bisect`-based lookup), the dispatch loop
becomes a recursive function returning both the dispatch result and a
trace of handler start/settle events, and `spreadflow_core/scheduler.py`
becomes explicit state passing over a scheduler record.
-/

namespace Spreadflow

/-- Listener key, mirroring `Key = namedtuple('Key', ['priority', 'serial'])`.
The serial is drawn from the dispatcher-owned `itertools.count()`. -/
structure Key where
  priority : Int
  serial : Nat
deriving DecidableEq, Repr, Inhabited

/-- Handler record, mirroring `Handler = namedtuple('Handler', ['callback', 'args', 'kwds'])`.
The callback and its stored arguments are opaque payloads here; dispatch
semantics consults an evaluation oracle for the outcome of an invocation. -/
structure Handler where
  callback : Nat
  args : List Nat
  kwds : List (Nat × Nat)
deriving DecidableEq, Repr, Inhabited

/-- Registry entry, mirroring `Entry = namedtuple('Entry', ['key', 'handler'])`. -/
structure Entry where
  key : Key
  handler : Handler
deriving DecidableEq, Repr, Inhabited

/-- Strict lexicographic order on keys: `(priority, serial)` tuple comparison. -/
def Key.ltB (a b : Key) : Bool :=
  a.priority < b.priority || (a.priority == b.priority && a.serial < b.serial)

/-- Reflexive lexicographic order on keys. -/
def Key.leB (a b : Key) : Bool :=
  a.priority < b.priority || (a.priority == b.priority && a.serial ≤ b.serial)

theorem Key.ltB_iff (a b : Key) :
    a.ltB b = true ↔
      (a.priority < b.priority ∨ (a.priority = b.priority ∧ a.serial < b.serial)) := by
  simp [Key.ltB]

theorem Key.leB_iff (a b : Key) :
    a.leB b = true ↔
      (a.priority < b.priority ∨ (a.priority = b.priority ∧ a.serial ≤ b.serial)) := by
  simp [Key.leB]

theorem Key.ltB_trans {a b c : Key} (h1 : a.ltB b = true) (h2 : b.ltB c = true) :
    a.ltB c = true := by
  rw [Key.ltB_iff] at h1 h2 ⊢
  omega

theorem Key.ltB_of_not_ltB {a b : Key} (hne : a.serial ≠ b.serial)
    (h : a.ltB b = false) : b.ltB a = true := by
  rw [← Bool.not_eq_true, Key.ltB_iff] at h
  rw [Key.ltB_iff]
  omega

theorem Key.ltB_irrefl (a : Key) : a.ltB a = false := by
  rw [← Bool.not_eq_true, Key.ltB_iff]
  push_neg
  omega

/-- Ordering used throughout for listener lists: entries compared by key.
Entries are namedtuples in the source and compare lexicographically, but
serials are unique per dispatcher so the key comparison always decides. -/
def entryLt (a b : Entry) : Prop := Key.ltB a.key b.key = true

instance : DecidablePred fun p : Entry × Entry => entryLt p.1 p.2 := by
  intro p; unfold entryLt; infer_instance

/-- State of an `EventDispatcher`: the serial counter and the per-event-type
listener lists (`self._counter`, `self._listeners`).  An event type mapping
to `[]` models absence from the dict; the code deletes a listener list as
soon as it becomes empty, so the two coincide. -/
structure DState where
  counter : Nat
  listeners : Nat → List Entry

/-- State of a freshly constructed dispatcher. -/
def initD : DState := ⟨0, fun _ => []⟩

/-- Insertion step of `bisect.insort(listeners, Entry(key, handler))`:
walk past entries not greater than the new one, i.e. insert to the right
of equal keys (ties cannot occur since serials are unique). -/
def insort (x : Entry) : List Entry → List Entry
  | [] => [x]
  | e :: es => if Key.ltB x.key e.key then x :: e :: es else e :: insort x es

/-- Embedding of `EventDispatcher.add_listener`: build the key from the
priority and the next counter value, insert maintaining order, return key. -/
def add_listener (st : DState) (et : Nat) (priority : Int) (h : Handler) :
    Key × DState :=
  (⟨priority, st.counter⟩,
    ⟨st.counter + 1,
      fun x => if x = et then
        insort ⟨⟨priority, st.counter⟩, h⟩ (st.listeners et)
      else st.listeners x⟩)

/-- Python exception outcomes relevant to the embedded code paths. -/
inductive PyErr where
  | keyError (k : Key)
  | typeError (kw : String)
  | assertError (msg : String)
deriving DecidableEq, Repr

/-- Embedding of `bisect.bisect(listeners, (key,), hi=...)`: binary search
returning the right insertion point for the one-element tuple `(key,)`.
Tuple comparison gives `(key,) < Entry(k, h)` exactly when `key ≤ k`. -/
def bisectR (l : List Entry) (x : Key) (lo hi : Nat) : Nat :=
  if lo < hi then
    if Key.leB x (l.getD ((lo + hi) / 2) default).key then
      bisectR l x lo ((lo + hi) / 2)
    else
      bisectR l x ((lo + hi) / 2 + 1) hi
  else lo
termination_by hi - lo
decreasing_by
  · omega
  · omega

/-- Embedding of `EventDispatcher.remove_listener`: a dict miss raises
`KeyError`; otherwise locate the key with `bisect` capped at `len - 1`,
pop the entry if its key matches, else raise `KeyError(key)`. -/
def remove_listener (st : DState) (et : Nat) (k : Key) :
    Except PyErr (Handler × DState) :=
  if (st.listeners et).isEmpty then .error (.keyError k)
  else
    if ((st.listeners et).getD
        (bisectR (st.listeners et) k 0 ((st.listeners et).length - 1)) default).key
        = k then
      .ok (((st.listeners et).getD
          (bisectR (st.listeners et) k 0 ((st.listeners et).length - 1)) default).handler,
        ⟨st.counter,
          fun x => if x = et then
            (st.listeners et).eraseIdx
              (bisectR (st.listeners et) k 0 ((st.listeners et).length - 1))
          else st.listeners x⟩)
    else .error (.keyError k)

/-- Embedding of `EventDispatcher.get_listeners`. -/
def get_listeners (st : DState) (et : Nat) : List Entry := st.listeners et

/-- Registry operations a client may perform on one dispatcher. -/
inductive DOp where
  | add (et : Nat) (priority : Int) (h : Handler)
  | remove (et : Nat) (k : Key)

/-- Effect of one registry operation on the dispatcher state; a raised
`KeyError` leaves the state unchanged. -/
def applyDOp (st : DState) : DOp → DState
  | .add et p h => (add_listener st et p h).2
  | .remove et k =>
      match remove_listener st et k with
      | .ok r => r.2
      | .error _ => st

/-- Dispatcher state after a sequence of registry operations. -/
def applyDOps (ops : List DOp) : DState := ops.foldl applyDOp initD

/-- Specification-side registry: registrations kept in registration order,
with removals filtering out the targeted key. -/
structure SpecState where
  counter : Nat
  regs : Nat → List Entry

/-- Specification-side effect of one registry operation. -/
def specApply (s : SpecState) : DOp → SpecState
  | .add et p h =>
      ⟨s.counter + 1,
        fun x => if x = et then s.regs x ++ [⟨⟨p, s.counter⟩, h⟩] else s.regs x⟩
  | .remove et k =>
      ⟨s.counter,
        fun x => if x = et then (s.regs x).filter (fun e => e.key != k) else s.regs x⟩

/-- Registrations added and not removed by the operation sequence, for one
event type, in registration order. -/
def remainingRegs (ops : List DOp) (et : Nat) : List Entry :=
  (ops.foldl specApply ⟨0, fun _ => []⟩).regs et

/-! Order facts about keys. -/

theorem Key.leB_refl (a : Key) : a.leB a = true := by
  rw [Key.leB_iff]; omega

theorem Key.leB_of_ltB {a b : Key} (h : a.ltB b = true) : a.leB b = true := by
  rw [Key.ltB_iff] at h; rw [Key.leB_iff]; omega

theorem Key.not_leB_of_ltB {a b : Key} (h : a.ltB b = true) : b.leB a = false := by
  rw [Key.ltB_iff] at h
  rw [← Bool.not_eq_true, Key.leB_iff]
  omega

theorem entryLt_trans {a b c : Entry} (h1 : entryLt a b) (h2 : entryLt b c) :
    entryLt a c := Key.ltB_trans h1 h2

instance : IsAntisymm Entry entryLt :=
  ⟨fun a b h1 h2 => by
    have := Key.ltB_trans h1 h2
    rw [Key.ltB_irrefl] at this
    cases this⟩

/-! Facts about `insort`. -/

theorem insort_perm (x : Entry) (l : List Entry) : List.Perm (insort x l) (x :: l) := by
  induction l with
  | nil => simp [insort]
  | cons e es ih =>
    by_cases h : Key.ltB x.key e.key = true
    · simp [insort, h]
    · simp only [insort, h, if_neg, Bool.false_eq_true, not_false_eq_true, ite_false]
      exact (ih.cons e).trans (List.Perm.swap x e es)

theorem mem_insort {x e : Entry} {l : List Entry} :
    e ∈ insort x l ↔ e = x ∨ e ∈ l := by
  rw [(insort_perm x l).mem_iff]
  simp

theorem insort_pairwise {x : Entry} {l : List Entry} (hs : l.Pairwise entryLt)
    (hfresh : ∀ e ∈ l, e.key.serial ≠ x.key.serial) :
    (insort x l).Pairwise entryLt := by
  induction l with
  | nil => simp [insort]
  | cons e es ih =>
    rw [List.pairwise_cons] at hs
    by_cases h : Key.ltB x.key e.key = true
    · simp only [insort, h, ite_true]
      rw [List.pairwise_cons]
      refine ⟨?_, List.pairwise_cons.mpr hs⟩
      intro b hb
      rcases List.mem_cons.mp hb with rfl | hb
      · exact h
      · exact entryLt_trans h (hs.1 b hb)
    · simp only [insort, h, Bool.false_eq_true, ite_false]
      rw [List.pairwise_cons]
      constructor
      · intro b hb
        rcases mem_insort.mp hb with rfl | hb
        · exact Key.ltB_of_not_ltB
            (fun hse => hfresh e (List.mem_cons_self e es) hse.symm)
            (Bool.eq_false_iff.mpr h)
        · exact hs.1 b hb
      · exact ih hs.2 fun e' he' => hfresh e' (List.mem_cons_of_mem e he')

/-! Correctness of the embedded binary search. -/

theorem bisectR_spec (l : List Entry) (x : Key) :
    ∀ (n lo hi : Nat), hi - lo ≤ n → lo ≤ hi →
      lo ≤ bisectR l x lo hi ∧ bisectR l x lo hi ≤ hi ∧
      (lo < bisectR l x lo hi →
        Key.leB x (l.getD (bisectR l x lo hi - 1) default).key = false) ∧
      (bisectR l x lo hi < hi →
        Key.leB x (l.getD (bisectR l x lo hi) default).key = true) := by
  intro n
  induction n with
  | zero =>
    intro lo hi hn hle
    have heq : lo = hi := by omega
    subst heq
    rw [bisectR]
    simp
  | succ n ih =>
    intro lo hi hn hle
    by_cases hlt : lo < hi
    · rw [bisectR]
      simp only [hlt, ite_true]
      by_cases hc : Key.leB x (l.getD ((lo + hi) / 2) default).key = true
      · rw [if_pos hc]
        obtain ⟨h1, h2, h3, h4⟩ := ih lo ((lo + hi) / 2) (by omega) (by omega)
        refine ⟨h1, by omega, h3, ?_⟩
        intro hr
        rcases Nat.lt_or_ge (bisectR l x lo ((lo + hi) / 2)) ((lo + hi) / 2) with h5 | h5
        · exact h4 h5
        · have heq : bisectR l x lo ((lo + hi) / 2) = (lo + hi) / 2 := by omega
          rw [heq]
          exact hc
      · rw [if_neg hc]
        obtain ⟨h1, h2, h3, h4⟩ := ih ((lo + hi) / 2 + 1) hi (by omega) (by omega)
        refine ⟨by omega, h2, ?_, h4⟩
        intro hr
        rcases Nat.lt_or_ge ((lo + hi) / 2 + 1) (bisectR l x ((lo + hi) / 2 + 1) hi) with h5 | h5
        · exact h3 h5
        · have heq : bisectR l x ((lo + hi) / 2 + 1) hi = (lo + hi) / 2 + 1 := by omega
          rw [heq]
          simpa using Bool.eq_false_iff.mpr hc
    · rw [bisectR]
      simp only [hlt, ite_false]
      exact ⟨Nat.le_refl lo, hle, fun h => absurd h (Nat.lt_irrefl lo), fun h => h.elim⟩

theorem getD_eq_get {l : List Entry} {i : Nat} (h : i < l.length) :
    l.getD i default = l.get ⟨i, h⟩ := by
  simp [List.getD_eq_getElem?_getD, List.getElem?_eq_getElem h]

theorem bisectR_finds {l : List Entry} (hs : l.Pairwise entryLt) {k : Key} {j : Nat}
    (hj : j < l.length) (hkey : (l.get ⟨j, hj⟩).key = k) :
    bisectR l k 0 (l.length - 1) = j := by
  obtain ⟨h1, h2, h3, h4⟩ :=
    bisectR_spec l k l.length 0 (l.length - 1) (by omega) (by omega)
  rcases Nat.lt_trichotomy (bisectR l k 0 (l.length - 1)) j with h | h | h
  · exfalso
    have hrl : bisectR l k 0 (l.length - 1) < l.length := by omega
    have h4' := h4 (by omega)
    rw [getD_eq_get hrl] at h4'
    have hlt : entryLt (l.get ⟨bisectR l k 0 (l.length - 1), hrl⟩) (l.get ⟨j, hj⟩) :=
      List.pairwise_iff_get.mp hs _ _ h
    unfold entryLt at hlt
    rw [hkey] at hlt
    rw [Key.not_leB_of_ltB hlt] at h4'
    cases h4'
  · exact h
  · exfalso
    have h3' := h3 (by omega)
    have hr1 : bisectR l k 0 (l.length - 1) - 1 < l.length := by omega
    rw [getD_eq_get hr1] at h3'
    rcases Nat.lt_or_ge j (bisectR l k 0 (l.length - 1) - 1) with hj2 | hj2
    · have hlt : entryLt (l.get ⟨j, hj⟩)
          (l.get ⟨bisectR l k 0 (l.length - 1) - 1, hr1⟩) :=
        List.pairwise_iff_get.mp hs _ _ hj2
      unfold entryLt at hlt
      rw [hkey] at hlt
      rw [Key.leB_of_ltB hlt] at h3'
      cases h3'
    · have heq : j = bisectR l k 0 (l.length - 1) - 1 := by omega
      subst heq
      rw [hkey] at h3'
      rw [Key.leB_refl] at h3'
      cases h3'

/-! Removing the entry located by the search equals filtering out its key. -/

theorem eraseIdx_eq_filter {k : Key} :
    ∀ {l : List Entry}, l.Pairwise entryLt → ∀ {idx : Nat} (hidx : idx < l.length),
      (l.get ⟨idx, hidx⟩).key = k →
      l.eraseIdx idx = l.filter (fun e => e.key != k) := by
  intro l
  induction l with
  | nil => intro _ idx hidx; cases (Nat.not_lt_zero idx) hidx
  | cons e es ih =>
    intro hs idx hidx hkey
    rw [List.pairwise_cons] at hs
    cases idx with
    | zero =>
      simp only [List.get] at hkey
      simp only [List.eraseIdx, List.filter_cons]
      have hek : (e.key != k) = false := by simp [hkey]
      rw [hek]
      simp only [Bool.false_eq_true, ite_false]
      rw [List.filter_eq_self.mpr]
      intro e' he'
      have hlt := hs.1 e' he'
      unfold entryLt at hlt
      rw [hkey] at hlt
      simp only [bne_iff_ne, ne_eq]
      intro hcontra
      rw [hcontra, Key.ltB_irrefl] at hlt
      cases hlt
    | succ n =>
      have hn : n < es.length := by simpa using hidx
      have hkey' : (es.get ⟨n, hn⟩).key = k := by simpa using hkey
      simp only [List.eraseIdx, List.filter_cons]
      have hek : (e.key != k) = true := by
        have hmem := es.get_mem n hn
        have hlt := hs.1 _ hmem
        unfold entryLt at hlt
        rw [hkey'] at hlt
        simp only [bne_iff_ne, ne_eq]
        intro hcontra
        rw [← hcontra, Key.ltB_irrefl] at hlt
        cases hlt
      rw [hek]
      simp only [ite_true]
      rw [ih hs.2 hn hkey']

/-! Simulation between the embedded registry and its specification. -/

/-- Specification-side state of a fresh dispatcher. -/
def initSpec : SpecState := ⟨0, fun _ => []⟩

/-- Coupling invariant: counters agree, every listener list is strictly
sorted by key, serials are below the counter, and each listener list is a
permutation of the specification-side registrations. -/
def InvSim (st : DState) (ss : SpecState) : Prop :=
  st.counter = ss.counter ∧
  ∀ et, (st.listeners et).Pairwise entryLt ∧
    (∀ e ∈ st.listeners et, e.key.serial < st.counter) ∧
    (st.listeners et).Perm (ss.regs et)

theorem invSim_init : InvSim initD initSpec := by
  refine ⟨rfl, fun et => ⟨List.Pairwise.nil, ?_, List.Perm.refl _⟩⟩
  intro e he
  cases he

theorem invSim_applyDOp {st : DState} {ss : SpecState} (h : InvSim st ss) :
    ∀ op : DOp, InvSim (applyDOp st op) (specApply ss op) := by
  obtain ⟨hc, hl⟩ := h
  intro op
  cases op with
  | add et p hd =>
    refine ⟨by simp [applyDOp, add_listener, specApply, hc], ?_⟩
    intro et'
    obtain ⟨hp, hb, hperm⟩ := hl et'
    simp only [applyDOp, add_listener, specApply]
    by_cases he : et' = et
    · subst he
      simp only [ite_true]
      refine ⟨?_, ?_, ?_⟩
      · exact insort_pairwise hp fun e he' => by
          have := hb e he'
          exact (show e.key.serial ≠ st.counter by omega)
      · intro e he'
        rcases mem_insort.mp he' with rfl | hm
        · exact (show st.counter < st.counter + 1 by omega)
        · exact Nat.lt_succ_of_lt (hb e hm)
      · rw [← hc]
        refine (insort_perm _ _).trans ?_
        exact (hperm.cons _).trans (List.perm_append_singleton _ _).symm
    · simp only [he, ite_false]
      exact ⟨hp, fun e he' => Nat.lt_succ_of_lt (hb e he'), hperm⟩
  | remove et k =>
    simp only [applyDOp, remove_listener, specApply]
    by_cases hemp : (st.listeners et).isEmpty = true
    · rw [if_pos hemp]
      refine ⟨hc, ?_⟩
      intro et'
      obtain ⟨hp, hb, hperm⟩ := hl et'
      by_cases he : et' = et
      · subst he
        have hnil : st.listeners et' = [] := List.isEmpty_iff.mp hemp
        have hregs : ss.regs et' = [] := by
          rw [hnil] at hperm
          exact hperm.nil_eq.symm
        simp only [ite_true, hregs, List.filter_nil]
        exact ⟨hp, hb, by rw [hregs] at hperm; exact hperm⟩
      · simp only [he, ite_false]
        exact ⟨hp, hb, hperm⟩
    · rw [if_neg hemp]
      obtain ⟨hpet, hbet, hpermet⟩ := hl et
      have hlen : 0 < (st.listeners et).length := by
        cases hll : st.listeners et with
        | nil => rw [hll] at hemp; simp [List.isEmpty] at hemp
        | cons a as => simp [hll]
      by_cases hmem : ∃ e ∈ st.listeners et, e.key = k
      · obtain ⟨e, hein, hekey⟩ := hmem
        obtain ⟨⟨j, hj⟩, hget⟩ := List.mem_iff_get.mp hein
        have hkey : ((st.listeners et).get ⟨j, hj⟩).key = k := by rw [hget, hekey]
        have hfind := bisectR_finds hpet hj hkey
        have hmatch : ((st.listeners et).getD
            (bisectR (st.listeners et) k 0 ((st.listeners et).length - 1)) default).key
            = k := by
          rw [hfind, getD_eq_get hj, hkey]
        rw [if_pos hmatch]
        refine ⟨hc, ?_⟩
        intro et'
        obtain ⟨hp, hb, hperm⟩ := hl et'
        by_cases he : et' = et
        · subst he
          simp only [ite_true]
          have herase : (st.listeners et').eraseIdx
              (bisectR (st.listeners et') k 0 ((st.listeners et').length - 1)) =
              (st.listeners et').filter (fun e => e.key != k) := by
            rw [hfind]
            exact eraseIdx_eq_filter hp hj hkey
          rw [herase]
          refine ⟨?_, ?_, ?_⟩
          · exact hp.sublist (List.filter_sublist _)
          · intro e' he'
            exact hb e' (List.mem_of_mem_filter he')
          · exact hperm.filter _
        · simp only [he, ite_false]
          exact ⟨hp, hb, hperm⟩
      · push_neg at hmem
        have hnomatch : ¬ ((st.listeners et).getD
            (bisectR (st.listeners et) k 0 ((st.listeners et).length - 1)) default).key
            = k := by
          obtain ⟨h1, h2, _, _⟩ :=
            bisectR_spec (st.listeners et) k (st.listeners et).length 0
              ((st.listeners et).length - 1) (by omega) (by omega)
          have hrl : bisectR (st.listeners et) k 0 ((st.listeners et).length - 1) <
              (st.listeners et).length := by omega
          rw [getD_eq_get hrl]
          exact hmem _ (List.get_mem _ _ hrl)
        rw [if_neg hnomatch]
        refine ⟨hc, ?_⟩
        intro et'
        obtain ⟨hp, hb, hperm⟩ := hl et'
        by_cases he : et' = et
        · subst he
          simp only [ite_true]
          have hfix : (ss.regs et').filter (fun e => e.key != k) = ss.regs et' := by
            rw [List.filter_eq_self]
            intro e he'
            simp only [bne_iff_ne, ne_eq]
            exact hmem e (hperm.mem_iff.mpr he')
          rw [hfix]
          exact ⟨hp, hb, hperm⟩
        · simp only [he, ite_false]
          exact ⟨hp, hb, hperm⟩

theorem invSim_foldl :
    ∀ (ops : List DOp) (st : DState) (ss : SpecState), InvSim st ss →
      InvSim (ops.foldl applyDOp st) (ops.foldl specApply ss) := by
  intro ops
  induction ops with
  | nil => intro st ss h; exact h
  | cons op rest ih =>
    intro st ss h
    exact ih _ _ (invSim_applyDOp h op)

theorem invSim_applyDOps (ops : List DOp) :
    InvSim (applyDOps ops) (ops.foldl specApply initSpec) :=
  invSim_foldl ops initD initSpec invSim_init

/-- C2: for every sequence of `add_listener` and `remove_listener` calls on
one dispatcher, `get_listeners` yields exactly the remaining registrations
for the event type, sorted strictly increasing by `(priority, serial)` —
priority ascending, registration order ascending within a priority — and
any operation sequence leaving the same remaining registrations yields the
same listener list, so the result is independent of insertion order. -/
theorem c2_get_listeners_sorted_remaining (ops : List DOp) (et : Nat) :
    (get_listeners (applyDOps ops) et).Pairwise entryLt ∧
    (get_listeners (applyDOps ops) et).Perm (remainingRegs ops et) ∧
    ∀ ops₂ : List DOp, (remainingRegs ops₂ et).Perm (remainingRegs ops et) →
      get_listeners (applyDOps ops₂) et = get_listeners (applyDOps ops) et := by
  obtain ⟨_, hl⟩ := invSim_applyDOps ops
  obtain ⟨hp, _, hperm⟩ := hl et
  refine ⟨hp, hperm, ?_⟩
  intro ops₂ hP
  obtain ⟨_, hl₂⟩ := invSim_applyDOps ops₂
  obtain ⟨hp₂, _, hperm₂⟩ := hl₂ et
  exact List.eq_of_perm_of_sorted (hperm₂.trans (hP.trans hperm.symm)) hp₂ hp

/-- Witness for C2 at a concrete operation sequence: registrations made at
priorities 1 then 0 come back priority-sorted, and a second sequence with
extra add/remove churn on another event type yields the same listing. -/
theorem c2_get_listeners_sorted_remaining_witness :
    (remainingRegs [DOp.add 0 1 ⟨1, [], []⟩, DOp.add 0 0 ⟨2, [], []⟩,
        DOp.add 1 5 ⟨3, [], []⟩, DOp.remove 1 ⟨5, 2⟩] 0).Perm
      (remainingRegs [DOp.add 0 1 ⟨1, [], []⟩, DOp.add 0 0 ⟨2, [], []⟩] 0) ∧
    get_listeners (applyDOps [DOp.add 0 1 ⟨1, [], []⟩, DOp.add 0 0 ⟨2, [], []⟩,
        DOp.add 1 5 ⟨3, [], []⟩, DOp.remove 1 ⟨5, 2⟩]) 0 =
      get_listeners (applyDOps [DOp.add 0 1 ⟨1, [], []⟩, DOp.add 0 0 ⟨2, [], []⟩]) 0 :=
  ⟨by decide,
    (c2_get_listeners_sorted_remaining
        [DOp.add 0 1 ⟨1, [], []⟩, DOp.add 0 0 ⟨2, [], []⟩] 0).2.2
      [DOp.add 0 1 ⟨1, [], []⟩, DOp.add 0 0 ⟨2, [], []⟩,
        DOp.add 1 5 ⟨3, [], []⟩, DOp.remove 1 ⟨5, 2⟩] (by decide)⟩

/-! Dispatch semantics. -/

/-- Failure-mode constants, mirroring `FailMode.RAISE = 0` and
`FailMode.RETURN = 1`. -/
def FailMode.RAISE : Nat := 0

/-- Failure mode under which handler failures become part of the result. -/
def FailMode.RETURN : Nat := 1

/-- Error record mirroring `HandlerError(handler, wrapped_failure)`. -/
structure HandlerError where
  handler : Handler
  wrapped : Nat
deriving DecidableEq, Repr

/-- Failure carried by a `defer.FirstError`: the per-handler errback wraps
every failure into a `HandlerError`, but `_trap_first_error` also copes
with a raw sub-failure, so both shapes are modelled. -/
inductive SubFailure where
  | handlerError (e : HandlerError)
  | raw (f : Nat)
deriving DecidableEq, Repr

/-- Record mirroring `defer.FirstError(subFailure, index)`. -/
structure FirstError where
  subFailure : SubFailure
  index : Nat
deriving DecidableEq, Repr

/-- Embedding of `_trap_first_error`: unwrap the aggregate failure into the
originating `HandlerError`, or attribute a raw sub-failure to the handler
at the recorded index. -/
def trap_first_error (fe : FirstError) (handlers : List Handler) : HandlerError :=
  match fe.subFailure with
  | .handlerError e => e
  | .raw f => ⟨handlers.getD fe.index default, f⟩

/-- Per-handler deferred state after the wrapping errback
`lambda failure, handler=handler: Failure(HandlerError(handler, failure))`. -/
def wrapOutcome (h : Handler) (o : Except Nat Nat) : Except HandlerError Nat :=
  match o with
  | .ok v => .ok v
  | .error f => .error ⟨h, f⟩

/-- Group-result entry `(success, result)`: `(True, value)` on success,
`(False, HandlerError)` on failure. -/
def GroupEntry : Type := Bool × (Nat ⊕ HandlerError)

instance : DecidableEq GroupEntry := by
  unfold GroupEntry; infer_instance

/-- Result entries collected by a `DeferredList` that ran to completion. -/
def entriesOf (batch : List (Except HandlerError Nat)) : List GroupEntry :=
  batch.map fun o =>
    match o with
    | .ok v => (true, Sum.inl v)
    | .error e => (false, Sum.inr e)

/-- First failed deferred of the batch, counting from index `i`. -/
def firstErr : List (Except HandlerError Nat) → Nat → Option FirstError
  | [], _ => none
  | .ok _ :: rest, i => firstErr rest (i + 1)
  | .error e :: _, i => some ⟨.handlerError e, i⟩

/-- Embedding of `defer.DeferredList(batch, consumeErrors=True,
fireOnOneErrback=fire_on_fail)`: with `fireOnOneErrback` the list fails
with a `FirstError` at the first failed deferred, otherwise it collects
every `(success, result)` pair. -/
def deferredList (fireOnOneErrback : Bool) (batch : List (Except HandlerError Nat)) :
    Except FirstError (List GroupEntry) :=
  if fireOnOneErrback then
    match firstErr batch 0 with
    | some fe => .error fe
    | none => .ok (entriesOf batch)
  else .ok (entriesOf batch)

/-- Grouping step of `itertools.groupby(listeners, key=priority)`:
consecutive entries of equal priority form one group. -/
def groupByPriority : List Entry → List (Int × List Entry)
  | [] => []
  | e :: es =>
    match groupByPriority es with
    | [] => [(e.key.priority, [e])]
    | (p, g) :: rest =>
        if e.key.priority = p then (p, e :: g) :: rest
        else (e.key.priority, [e]) :: (p, g) :: rest

/-- Observable handler events of one dispatch: handler `i` of priority
group `g` was invoked, or its deferred settled. -/
inductive TraceEv where
  | start (g : Nat) (i : Nat)
  | settle (g : Nat) (i : Nat)
deriving DecidableEq, Repr

/-- Priority-group index an event belongs to. -/
def tagOf : TraceEv → Nat
  | .start g _ => g
  | .settle g _ => g

/-- Events contributed by one fully processed priority group: all its
handlers are invoked, then the dispatcher waits until all have settled.
The claims under verification only constrain ordering across groups, so
the interleaving within a group is canonicalised. -/
def groupTrace (g : Nat) (n : Nat) : List TraceEv :=
  (List.range n).map (TraceEv.start g) ++ (List.range n).map (TraceEv.settle g)

/-- Embedding of the loop body of `EventDispatcher.dispatch`: walk the
priority groups in order; build the batch of wrapped handler deferreds;
an aggregate failure under `RAISE` aborts with the trapped `HandlerError`
and no later group contributes events; otherwise append the group results
and continue.  Returns the dispatch outcome and the event trace. -/
def dispatchRun (eval : Handler → Nat → Except Nat Nat) (event : Nat)
    (failMode : Nat) :
    Nat → List (Int × List Entry) →
      Except HandlerError (List (Int × List GroupEntry)) × List TraceEv
  | _, [] => (.ok [], [])
  | gi, (p, g) :: rest =>
    let handlers := g.map Entry.handler
    let batch := handlers.map fun h => wrapOutcome h (eval h event)
    if batch.length = 0 then
      dispatchRun eval event failMode (gi + 1) rest
    else
      match deferredList (failMode == FailMode.RAISE) batch with
      | .error fe =>
          (.error (trap_first_error fe handlers), groupTrace gi handlers.length)
      | .ok entries =>
          let r := dispatchRun eval event failMode (gi + 1) rest
          (match r.1 with
           | .ok tail => .ok ((p, entries) :: tail)
           | .error e => .error e,
           groupTrace gi handlers.length ++ r.2)

/-- Embedding of `EventDispatcher.dispatch(event, fail_mode)` on a
dispatcher state: group the listeners of the event's type by priority and
run them; `eval` gives the outcome of each handler invocation. -/
def dispatchD (st : DState) (eval : Handler → Nat → Except Nat Nat)
    (event : Nat) (et : Nat) (failMode : Nat) :
    Except HandlerError (List (Int × List GroupEntry)) × List TraceEv :=
  dispatchRun eval event failMode 0 (groupByPriority (get_listeners st et))

/-! Facts about the priority grouping. -/

theorem groupByPriority_ne_nil (e : Entry) (es : List Entry) :
    groupByPriority (e :: es) ≠ [] := by
  simp only [groupByPriority]
  cases groupByPriority es with
  | nil => simp
  | cons pg rest =>
    obtain ⟨p, g⟩ := pg
    by_cases hp : e.key.priority = p <;> simp [hp]

theorem groupByPriority_head (e : Entry) (es : List Entry) :
    ∃ g rest, groupByPriority (e :: es) = (e.key.priority, g) :: rest := by
  simp only [groupByPriority]
  cases hgb : groupByPriority es with
  | nil => exact ⟨[e], [], rfl⟩
  | cons pg rest =>
    obtain ⟨p, g⟩ := pg
    by_cases hp : e.key.priority = p
    · subst hp
      simp
    · simp [hp]

theorem groupByPriority_nonempty :
    ∀ {l : List Entry}, ∀ pg ∈ groupByPriority l, pg.2 ≠ [] := by
  intro l
  induction l with
  | nil => intro pg h; simp [groupByPriority] at h
  | cons e es ih =>
    intro pg h
    simp only [groupByPriority] at h
    cases hgb : groupByPriority es with
    | nil =>
      rw [hgb] at h
      simp at h
      subst h
      simp
    | cons pg' rest =>
      obtain ⟨p, g⟩ := pg'
      rw [hgb] at h
      by_cases hp : e.key.priority = p
      · simp only [hp, ite_true] at h
        rcases List.mem_cons.mp h with rfl | h
        · simp
        · exact ih pg (hgb ▸ List.mem_cons_of_mem _ h)
      · simp only [hp, ite_false] at h
        rcases List.mem_cons.mp h with rfl | h
        · simp
        · exact ih pg (hgb ▸ h)

theorem groupByPriority_sorted :
    ∀ {l : List Entry}, l.Pairwise entryLt →
      ((groupByPriority l).map Prod.fst).Chain' (· < ·) := by
  intro l
  induction l with
  | nil => intro _; simp [groupByPriority]
  | cons e es ih =>
    intro hs
    rw [List.pairwise_cons] at hs
    have ihc := ih hs.2
    simp only [groupByPriority]
    cases hgb : groupByPriority es with
    | nil => simp
    | cons pg rest =>
      obtain ⟨p, g⟩ := pg
      rw [hgb] at ihc
      by_cases hp : e.key.priority = p
      · simp only [hp, ite_true]
        exact ihc
      · simp only [hp, ite_false]
        have hlt : e.key.priority < p := by
          cases es with
          | nil => rw [groupByPriority] at hgb; cases hgb
          | cons e₂ es₂ =>
            obtain ⟨g', rest', hhead⟩ := groupByPriority_head e₂ es₂
            rw [hhead] at hgb
            have hpeq : p = e₂.key.priority := by
              have := (List.cons.injEq _ _ _ _).mp hgb
              have := this.1
              exact (Prod.mk.injEq _ _ _ _).mp this.symm |>.1
            have hee := hs.1 e₂ (List.mem_cons_self e₂ es₂)
            unfold entryLt at hee
            rw [Key.ltB_iff] at hee
            rw [hpeq]
            rcases hee with h | ⟨h, _⟩
            · exact h
            · exact absurd (hpeq ▸ h) hp
        simp only [List.map_cons, List.chain'_cons]
        exact ⟨hlt, by simpa using ihc⟩

/-! Facts about dispatch traces. -/

/-- Relation forbidding a priority inversion: an invocation of a handler
of a later group never precedes the settlement of a handler of an earlier
group. -/
def noInversion : TraceEv → TraceEv → Prop
  | .start g2 _, .settle g1 _ => g2 ≤ g1
  | _, _ => True

theorem tagOf_groupTrace {g n : Nat} {e : TraceEv} (h : e ∈ groupTrace g n) :
    tagOf e = g := by
  unfold groupTrace at h
  rcases List.mem_append.mp h with h | h <;>
    obtain ⟨i, _, rfl⟩ := List.mem_map.mp h <;> rfl

theorem settle_mem_groupTrace {g n i : Nat} (h : i < n) :
    TraceEv.settle g i ∈ groupTrace g n := by
  unfold groupTrace
  refine List.mem_append.mpr (Or.inr ?_)
  exact List.mem_map.mpr ⟨i, List.mem_range.mpr h, rfl⟩

theorem noInversion_of_tag_le {a b : TraceEv} (h : tagOf a ≤ tagOf b) :
    noInversion a b := by
  cases a <;> cases b <;> simp [noInversion, tagOf] at * <;> omega

theorem pairwise_of_forall_mem_pair {R : TraceEv → TraceEv → Prop} :
    ∀ {l : List TraceEv}, (∀ a ∈ l, ∀ b ∈ l, R a b) → l.Pairwise R := by
  intro l
  induction l with
  | nil => intro _; exact List.Pairwise.nil
  | cons x xs ih =>
    intro h
    rw [List.pairwise_cons]
    constructor
    · intro b hb
      exact h x (List.mem_cons_self x xs) b (List.mem_cons_of_mem x hb)
    · exact ih fun a ha b hb =>
        h a (List.mem_cons_of_mem x ha) b (List.mem_cons_of_mem x hb)

theorem groupTrace_pairwise (g n : Nat) :
    (groupTrace g n).Pairwise noInversion := by
  refine pairwise_of_forall_mem_pair ?_
  intro a ha b hb
  exact noInversion_of_tag_le (by rw [tagOf_groupTrace ha, tagOf_groupTrace hb])

theorem dispatchRun_tag_ge (eval : Handler → Nat → Except Nat Nat)
    (event fm : Nat) :
    ∀ (groups : List (Int × List Entry)) (gi : Nat) (e : TraceEv),
      e ∈ (dispatchRun eval event fm gi groups).2 → gi ≤ tagOf e := by
  intro groups
  induction groups with
  | nil => intro gi e h; simp [dispatchRun] at h
  | cons pg rest ih =>
    obtain ⟨p, g⟩ := pg
    intro gi e h
    rw [dispatchRun] at h
    by_cases hlen : ((g.map Entry.handler).map fun h => wrapOutcome h (eval h event)).length = 0
    · rw [if_pos hlen] at h
      exact Nat.le_of_succ_le (ih (gi + 1) e h)
    · rw [if_neg hlen] at h
      cases hdl : deferredList (fm == FailMode.RAISE)
          ((g.map Entry.handler).map fun h => wrapOutcome h (eval h event)) with
      | error fe =>
        rw [hdl] at h
        simp only [] at h
        rw [tagOf_groupTrace h]
      | ok entries =>
        rw [hdl] at h
        simp only [] at h
        rcases List.mem_append.mp h with h | h
        · rw [tagOf_groupTrace h]
        · exact Nat.le_of_succ_le (ih (gi + 1) e h)

theorem dispatchRun_pairwise (eval : Handler → Nat → Except Nat Nat)
    (event fm : Nat) :
    ∀ (groups : List (Int × List Entry)) (gi : Nat),
      ((dispatchRun eval event fm gi groups).2).Pairwise noInversion := by
  intro groups
  induction groups with
  | nil => intro gi; simp [dispatchRun]
  | cons pg rest ih =>
    obtain ⟨p, g⟩ := pg
    intro gi
    rw [dispatchRun]
    by_cases hlen : ((g.map Entry.handler).map fun h => wrapOutcome h (eval h event)).length = 0
    · rw [if_pos hlen]
      exact ih (gi + 1)
    · rw [if_neg hlen]
      cases hdl : deferredList (fm == FailMode.RAISE)
          ((g.map Entry.handler).map fun h => wrapOutcome h (eval h event)) with
      | error fe =>
        exact groupTrace_pairwise gi _
      | ok entries =>
        show ((groupTrace gi (g.map Entry.handler).length ++
          (dispatchRun eval event fm (gi + 1) rest).2)).Pairwise noInversion
        rw [List.pairwise_append]
        refine ⟨groupTrace_pairwise gi _, ih (gi + 1), ?_⟩
        intro a ha b hb
        refine noInversion_of_tag_le ?_
        rw [tagOf_groupTrace ha]
        exact Nat.le_of_succ_le (dispatchRun_tag_ge eval event fm rest (gi + 1) b hb)

theorem dispatchRun_complete (eval : Handler → Nat → Except Nat Nat)
    (event fm : Nat) :
    ∀ (groups : List (Int × List Entry)) (gi : Nat) (e : TraceEv),
      e ∈ (dispatchRun eval event fm gi groups).2 →
      ∀ j, gi ≤ j → j < tagOf e →
        ∀ i, i < ((groups.getD (j - gi) (0, [])).2.length) →
          TraceEv.settle j i ∈ (dispatchRun eval event fm gi groups).2 := by
  intro groups
  induction groups with
  | nil => intro gi e h; simp [dispatchRun] at h
  | cons pg rest ih =>
    obtain ⟨p, g⟩ := pg
    intro gi e h j hgi hj i hi
    rw [dispatchRun] at h ⊢
    by_cases hlen : ((g.map Entry.handler).map fun h => wrapOutcome h (eval h event)).length = 0
    · rw [if_pos hlen] at h ⊢
      have hg : g = [] := by
        simpa using hlen
      rcases Nat.eq_or_lt_of_le hgi with rfl | hgt
      · rw [Nat.sub_self] at hi
        rw [hg] at hi
        simp at hi
      · have := ih (gi + 1) e h j hgt hj i ?_
        · exact this
        · have : j - gi = (j - (gi + 1)) + 1 := by omega
          rw [this] at hi
          simpa using hi
    · rw [if_neg hlen] at h ⊢
      cases hdl : deferredList (fm == FailMode.RAISE)
          ((g.map Entry.handler).map fun h => wrapOutcome h (eval h event)) with
      | error fe =>
        rw [hdl] at h
        have := tagOf_groupTrace h
        omega
      | ok entries =>
        rw [hdl] at h
        show TraceEv.settle j i ∈ groupTrace gi (g.map Entry.handler).length ++
          (dispatchRun eval event fm (gi + 1) rest).2
        have h' : e ∈ groupTrace gi (g.map Entry.handler).length ++
            (dispatchRun eval event fm (gi + 1) rest).2 := h
        rcases List.mem_append.mp h' with h | h
        · have := tagOf_groupTrace h
          omega
        · rcases Nat.eq_or_lt_of_le hgi with rfl | hgt
          · refine List.mem_append.mpr (Or.inl ?_)
            refine settle_mem_groupTrace ?_
            rw [Nat.sub_self] at hi
            simpa using hi
          · refine List.mem_append.mpr (Or.inr ?_)
            refine ih (gi + 1) e h j hgt hj i ?_
            have heq : j - gi = (j - (gi + 1)) + 1 := by omega
            rw [heq] at hi
            simpa using hi

/-- C1: for every event type, dispatch processes the priority groups of its
listeners in ascending priority order, the trace never lets a handler of a
later group start before a handler of an earlier group settles, and
whenever any event of a later group appears in the trace, every handler of
every earlier group has a settlement in the trace. -/
theorem c1_priority_groups_sequential (ops : List DOp) (et : Nat)
    (eval : Handler → Nat → Except Nat Nat) (event failMode : Nat) :
    ((groupByPriority (get_listeners (applyDOps ops) et)).map Prod.fst).Pairwise
      (· < ·) ∧
    ((dispatchD (applyDOps ops) eval event et failMode).2).Pairwise noInversion ∧
    ∀ e ∈ (dispatchD (applyDOps ops) eval event et failMode).2,
      ∀ j, j < tagOf e →
        ∀ i, i < (((groupByPriority (get_listeners (applyDOps ops) et)).getD j
            (0, [])).2.length) →
          TraceEv.settle j i ∈ (dispatchD (applyDOps ops) eval event et failMode).2 := by
  obtain ⟨_, hl⟩ := invSim_applyDOps ops
  obtain ⟨hp, _, _⟩ := hl et
  refine ⟨List.chain'_iff_pairwise.mp (groupByPriority_sorted hp), ?_, ?_⟩
  · exact dispatchRun_pairwise eval event failMode _ 0
  · intro e he j hj i hi
    exact dispatchRun_complete eval event failMode _ 0 e he j (Nat.zero_le j) hj i
      (by rwa [Nat.sub_zero])

/-! RAISE-mode dispatch analysis. -/

theorem except_isOk_iff {α β : Type} (o : Except α β) :
    o.isOk = true ↔ ∃ v, o = .ok v := by
  cases o <;> simp [Except.isOk, Except.toBool]

theorem firstErr_all_ok :
    ∀ (batch : List (Except HandlerError Nat)) (i : Nat),
      (∀ o ∈ batch, ∃ v, o = .ok v) → firstErr batch i = none := by
  intro batch
  induction batch with
  | nil => intro i _; rfl
  | cons o os ih =>
    intro i h
    obtain ⟨v, rfl⟩ := h o (List.mem_cons_self o os)
    exact ih (i + 1) fun o' ho' => h o' (List.mem_cons_of_mem _ ho')

theorem firstErr_append :
    ∀ (okpart : List (Except HandlerError Nat)) (e : HandlerError)
      (rest : List (Except HandlerError Nat)) (i : Nat),
      (∀ o ∈ okpart, ∃ v, o = .ok v) →
      firstErr (okpart ++ .error e :: rest) i =
        some ⟨.handlerError e, i + okpart.length⟩ := by
  intro okpart
  induction okpart with
  | nil => intro e rest i _; simp [firstErr]
  | cons o os ih =>
    intro e rest i h
    obtain ⟨v, rfl⟩ := h o (List.mem_cons_self o os)
    show firstErr (os ++ .error e :: rest) (i + 1) = _
    rw [ih e rest (i + 1) fun o' ho' => h o' (List.mem_cons_of_mem _ ho')]
    rw [show i + (Except.ok v :: os).length = (i + 1) + os.length from by simp; omega]

theorem dispatchRun_raise_error (eval : Handler → Nat → Except Nat Nat)
    (event : Nat) :
    ∀ (pre : List (Int × List Entry)) (gi : Nat) (p : Int)
      (gpre grest : List Entry) (ebad : Entry) (post : List (Int × List Entry))
      (f : Nat),
      (∀ pg ∈ pre, ∀ e ∈ pg.2, (eval e.handler event).isOk = true) →
      (∀ e ∈ gpre, (eval e.handler event).isOk = true) →
      eval ebad.handler event = .error f →
      (dispatchRun eval event FailMode.RAISE gi
          (pre ++ (p, gpre ++ ebad :: grest) :: post)).1 =
        .error ⟨ebad.handler, f⟩ ∧
      ∀ g' i, TraceEv.start g' i ∈ (dispatchRun eval event FailMode.RAISE gi
          (pre ++ (p, gpre ++ ebad :: grest) :: post)).2 →
        g' ≤ gi + pre.length := by
  intro pre
  induction pre with
  | nil =>
    intro gi p gpre grest ebad post f _ hgpre hbad
    rw [List.nil_append, dispatchRun]
    have hlen : ¬ (((gpre ++ ebad :: grest).map Entry.handler).map
        fun h => wrapOutcome h (eval h event)).length = 0 := by
      simp
    rw [if_neg hlen]
    have hbatch : ((gpre ++ ebad :: grest).map Entry.handler).map
        (fun h => wrapOutcome h (eval h event)) =
        ((gpre.map Entry.handler).map fun h => wrapOutcome h (eval h event)) ++
          Except.error ⟨ebad.handler, f⟩ ::
            ((grest.map Entry.handler).map fun h => wrapOutcome h (eval h event)) := by
      simp [wrapOutcome, hbad]
    have hfe : deferredList (FailMode.RAISE == FailMode.RAISE)
        (((gpre ++ ebad :: grest).map Entry.handler).map
          fun h => wrapOutcome h (eval h event)) =
        .error ⟨.handlerError ⟨ebad.handler, f⟩, gpre.length⟩ := by
      show deferredList true _ = _
      rw [deferredList, if_pos rfl, hbatch]
      rw [firstErr_append _ _ _ 0 ?_]
      · simp
      · intro o ho
        simp only [List.map_map, List.mem_map] at ho
        obtain ⟨e, he, rfl⟩ := ho
        obtain ⟨v, hv⟩ := (except_isOk_iff _).mp (hgpre e he)
        exact ⟨v, by simp [Function.comp, wrapOutcome, hv]⟩
    rw [hfe]
    constructor
    · show Except.error (trap_first_error _ _) = _
      rw [trap_first_error]
    · intro g' i hmem
      have := tagOf_groupTrace hmem
      simp only [tagOf] at this
      omega
  | cons pg pre' ih =>
    obtain ⟨q, gq⟩ := pg
    intro gi p gpre grest ebad post f hpre hgpre hbad
    have hihargs := ih (gi + 1) p gpre grest ebad post f
      (fun pg hpg e he => hpre pg (List.mem_cons_of_mem _ hpg) e he) hgpre hbad
    rw [List.cons_append, dispatchRun]
    by_cases hgq : gq = []
    · subst hgq
      rw [if_pos (by simp)]
      refine ⟨hihargs.1, ?_⟩
      intro g' i hmem
      have := hihargs.2 g' i hmem
      simp only [List.length_cons]
      omega
    · rw [if_neg (by simpa using hgq)]
      have hok : deferredList (FailMode.RAISE == FailMode.RAISE)
          ((gq.map Entry.handler).map fun h => wrapOutcome h (eval h event)) =
          .ok (entriesOf ((gq.map Entry.handler).map
            fun h => wrapOutcome h (eval h event))) := by
        show deferredList true _ = _
        rw [deferredList, if_pos rfl]
        rw [firstErr_all_ok _ 0 ?_]
        intro o ho
        simp only [List.map_map, List.mem_map] at ho
        obtain ⟨e, he, rfl⟩ := ho
        obtain ⟨v, hv⟩ := (except_isOk_iff _).mp
          (hpre (q, gq) (List.mem_cons_self _ _) e he)
        exact ⟨v, by simp [Function.comp, wrapOutcome, hv]⟩
      rw [hok]
      constructor
      · show (match (dispatchRun eval event FailMode.RAISE (gi + 1)
            (pre' ++ (p, gpre ++ ebad :: grest) :: post)).1 with
          | Except.ok tail => Except.ok ((q, _) :: tail)
          | Except.error e => Except.error e) = _
        rw [hihargs.1]
      · intro g' i hmem
        have hmem' : TraceEv.start g' i ∈
            groupTrace gi (gq.map Entry.handler).length ++
              (dispatchRun eval event FailMode.RAISE (gi + 1)
                (pre' ++ (p, gpre ++ ebad :: grest) :: post)).2 := hmem
        rcases List.mem_append.mp hmem' with hm | hm
        · have := tagOf_groupTrace hm
          simp only [tagOf] at this
          omega
        · have := hihargs.2 g' i hm
          simp only [List.length_cons]
          omega

/-- C3: under `FailMode.RAISE`, when the handlers of all earlier priority
groups and of the failing group's earlier registrations succeed and one
handler fails, the dispatch result is exactly the `HandlerError` naming
that first-failing handler and wrapping its underlying failure — never an
aggregate error — and no handler of any later priority group is invoked. -/
theorem c3_raise_first_error (st : DState) (et : Nat)
    (eval : Handler → Nat → Except Nat Nat) (event : Nat)
    (pre post : List (Int × List Entry)) (p : Int) (gpre grest : List Entry)
    (ebad : Entry) (f : Nat)
    (hgroups : groupByPriority (get_listeners st et) =
      pre ++ (p, gpre ++ ebad :: grest) :: post)
    (hpre : ∀ pg ∈ pre, ∀ e ∈ pg.2, (eval e.handler event).isOk = true)
    (hgpre : ∀ e ∈ gpre, (eval e.handler event).isOk = true)
    (hbad : eval ebad.handler event = .error f) :
    (dispatchD st eval event et FailMode.RAISE).1 = .error ⟨ebad.handler, f⟩ ∧
    ∀ g' i, TraceEv.start g' i ∈ (dispatchD st eval event et FailMode.RAISE).2 →
      g' ≤ pre.length := by
  unfold dispatchD
  rw [hgroups]
  have h := dispatchRun_raise_error eval event pre 0 p gpre grest ebad post f
    hpre hgpre hbad
  exact ⟨h.1, fun g' i hm => by have := h.2 g' i hm; omega⟩

/-- Witness for C3: with listeners at priorities `[0, 1, 1, 2]` where the
second priority-1 handler fails, the dispatch fails with the handler error
of exactly that handler and no priority-2 handler is ever started. -/
theorem c3_raise_first_error_witness :
    (dispatchD (applyDOps [DOp.add 0 0 ⟨1, [], []⟩, DOp.add 0 1 ⟨2, [], []⟩,
        DOp.add 0 1 ⟨3, [], []⟩, DOp.add 0 2 ⟨4, [], []⟩])
      (fun h _ => if h.callback = 3 then .error 7 else .ok 5) 9 0
      FailMode.RAISE).1 = .error ⟨⟨3, [], []⟩, 7⟩ ∧
    TraceEv.start 2 0 ∉ (dispatchD (applyDOps [DOp.add 0 0 ⟨1, [], []⟩,
        DOp.add 0 1 ⟨2, [], []⟩, DOp.add 0 1 ⟨3, [], []⟩,
        DOp.add 0 2 ⟨4, [], []⟩])
      (fun h _ => if h.callback = 3 then .error 7 else .ok 5) 9 0
      FailMode.RAISE).2 := by
  have h := c3_raise_first_error
    (applyDOps [DOp.add 0 0 ⟨1, [], []⟩, DOp.add 0 1 ⟨2, [], []⟩,
      DOp.add 0 1 ⟨3, [], []⟩, DOp.add 0 2 ⟨4, [], []⟩]) 0
    (fun h _ => if h.callback = 3 then .error 7 else .ok 5) 9
    [(0, [⟨⟨0, 0⟩, ⟨1, [], []⟩⟩])] [(2, [⟨⟨2, 3⟩, ⟨4, [], []⟩⟩])] 1
    [⟨⟨1, 1⟩, ⟨2, [], []⟩⟩] [] ⟨⟨1, 2⟩, ⟨3, [], []⟩⟩ 7
    (by decide) (by decide) (by decide) rfl
  exact ⟨h.1, fun hmem => absurd (h.2 2 0 hmem) (by decide)⟩

/-! RETURN-mode dispatch analysis. -/

theorem entriesOf_map (eval : Handler → Nat → Except Nat Nat) (event : Nat) :
    ∀ hs : List Handler,
      entriesOf (hs.map fun h => wrapOutcome h (eval h event)) =
        hs.map fun h =>
          match eval h event with
          | .ok v => ((true : Bool), (Sum.inl v : Nat ⊕ HandlerError))
          | .error f => (false, Sum.inr ⟨h, f⟩) := by
  intro hs
  induction hs with
  | nil => rfl
  | cons h hs ih =>
    simp only [List.map_cons, entriesOf] at ih ⊢
    rw [ih]
    cases heval : eval h event <;> simp [wrapOutcome, heval]

theorem dispatchRun_return_eq (eval : Handler → Nat → Except Nat Nat)
    (event : Nat) :
    ∀ (groups : List (Int × List Entry)) (gi : Nat),
      (∀ pg ∈ groups, pg.2 ≠ []) →
      (dispatchRun eval event FailMode.RETURN gi groups).1 =
        .ok (groups.map fun pg => (pg.1, pg.2.map fun e =>
          match eval e.handler event with
          | .ok v => ((true : Bool), (Sum.inl v : Nat ⊕ HandlerError))
          | .error f => (false, Sum.inr ⟨e.handler, f⟩))) := by
  intro groups
  induction groups with
  | nil => intro gi _; rfl
  | cons pg rest ih =>
    obtain ⟨p, g⟩ := pg
    intro gi hne
    rw [dispatchRun]
    have hg : g ≠ [] := hne (p, g) (List.mem_cons_self _ _)
    rw [if_neg (by simpa using hg)]
    have hdl : deferredList (FailMode.RETURN == FailMode.RAISE)
        ((g.map Entry.handler).map fun h => wrapOutcome h (eval h event)) =
        .ok (entriesOf ((g.map Entry.handler).map
          fun h => wrapOutcome h (eval h event))) := rfl
    rw [hdl]
    show (match (dispatchRun eval event FailMode.RETURN (gi + 1) rest).1 with
      | Except.ok tail => Except.ok ((p, _) :: tail)
      | Except.error e => Except.error e) = _
    rw [ih (gi + 1) fun pg hpg => hne pg (List.mem_cons_of_mem _ hpg)]
    rw [entriesOf_map eval event]
    simp [List.map_map, Function.comp]

/-- C4: under `FailMode.RETURN` dispatch always completes successfully with
one `(priority, group-results)` entry per (necessarily non-empty) priority
group in ascending priority order; each group entry is `(True, value)` for
a successful handler and `(False, HandlerError ...)` for a failed one, in
registration order, and no failure prevents later groups from running. -/
theorem c4_return_full_result (ops : List DOp) (et : Nat)
    (eval : Handler → Nat → Except Nat Nat) (event : Nat) :
    (dispatchD (applyDOps ops) eval event et FailMode.RETURN).1 =
      .ok ((groupByPriority (get_listeners (applyDOps ops) et)).map fun pg =>
        (pg.1, pg.2.map fun e =>
          match eval e.handler event with
          | .ok v => ((true : Bool), (Sum.inl v : Nat ⊕ HandlerError))
          | .error f => (false, Sum.inr ⟨e.handler, f⟩))) ∧
    ((groupByPriority (get_listeners (applyDOps ops) et)).map Prod.fst).Pairwise
      (· < ·) ∧
    ∀ pg ∈ groupByPriority (get_listeners (applyDOps ops) et), pg.2 ≠ [] := by
  obtain ⟨_, hl⟩ := invSim_applyDOps ops
  obtain ⟨hp, _, _⟩ := hl et
  refine ⟨?_, List.chain'_iff_pairwise.mp (groupByPriority_sorted hp), ?_⟩
  · exact dispatchRun_return_eq eval event _ 0 fun pg hpg =>
      groupByPriority_nonempty pg hpg
  · exact fun pg hpg => groupByPriority_nonempty pg hpg

/-! Embedding of `EventDispatcher.log_failures`. -/

/-- Embedding of `EventDispatcher.log_failures(result, event)`.  The inner
loop `for success, result in group_results` rebinds the name `result`, so
the final `return result` yields whatever that name denotes once both
loops finish: the `result` argument itself only when no group contributed
an entry, and otherwise the second component of the last entry of the last
non-empty group.  The left summand is the passed-in dispatch result, the
right summand a single entry's value-or-failure.  Logging output is not
modelled; it does not affect the returned value. -/
def log_failures (result : List (Int × List GroupEntry)) :
    (List (Int × List GroupEntry)) ⊕ (Nat ⊕ HandlerError) :=
  result.foldl
    (fun acc pg => pg.2.foldl (fun _ entry => Sum.inr entry.2) acc)
    (Sum.inl result)

/-- C8 fails on the code: `log_failures` is not the identity on its result
argument.  At the one-group, one-success result `[(0, [(True, 5)])]` it
returns the bare value `5` — the inner loop variable shadows the `result`
parameter — instead of the result list, contradicting its own docstring
(`Returns: The result as passed into the method`). -/
theorem c8_log_failures_shadowing :
    log_failures [(0, [((true : Bool), (Sum.inl 5 : Nat ⊕ HandlerError))])] =
      Sum.inr (Sum.inl 5) ∧
    log_failures [(0, [((true : Bool), (Sum.inl 5 : Nat ⊕ HandlerError))])] ≠
      Sum.inl [(0, [((true : Bool), (Sum.inl 5 : Nat ⊕ HandlerError))])] := by
  exact ⟨rfl, by simp [log_failures]⟩

/-! Embedding of `spreadflow_core/scheduler.py`. -/

/-- Job record mirroring `Job(port, handler, item, send)`; the `send`
capability is the scheduler's own bound method and is left implicit. -/
structure SJob where
  port : Nat
  handler : Nat
  item : Nat
deriving DecidableEq, Repr

/-- Observable scheduler events: the dispatch of a `job` event whose
payload carries the job (destination port and item) and the completion
handle (the scheduler self-reference of the payload is implicit), and the
execution of a port's handler with an item. -/
inductive SchedEv where
  | jobDispatch (port : Nat) (item : Nat) (handle : Nat)
  | exec (port : Nat) (item : Nat)
deriving DecidableEq, Repr

/-- Scheduler state: the flowmap, whether `run` started the queue task
(`self._queue_task is not None`), the `_stopped` flag, the settlement of
the internal completion deferred `_done`, the JobQueue backlog (entries
paired with their completion handle), the pending-jobs map, the handle
counter and the observable event trace. -/
structure SchedState where
  flowmap : List (Nat × Nat)
  queueTask : Bool
  stopped : Bool
  doneSettled : Option Nat
  queue : List (Nat × SJob)
  pending : List (Nat × SJob)
  handleCounter : Nat
  trace : List SchedEv
deriving DecidableEq, Repr

/-- State of a freshly constructed scheduler over a flowmap. -/
def mkSched (fm : List (Nat × Nat)) : SchedState :=
  ⟨fm, false, false, none, [], [], 0, []⟩

/-- Embedding of `Scheduler.stop(reason)`: when not yet stopped, set the
flag and settle `_done` with the reason — `Deferred.callback` returns
`None`, which is what the call returns — otherwise return the passed
reason unchanged. -/
def stop (st : SchedState) (reason : Nat) : Option Nat × SchedState :=
  if st.stopped then (some reason, st)
  else (none, { st with stopped := true, doneSettled := some reason })

/-- Embedding of `Scheduler.run`: assert the scheduler was neither started
nor stopped, then start cooperative draining of the queue.  The `attach`
and `start` dispatches carry no payload relevant to the claims under
verification and are not modelled. -/
def run (st : SchedState) : Except PyErr SchedState :=
  if st.queueTask || st.stopped then
    .error (.assertError "Must not call start() more than once")
  else .ok { st with queueTask := true }

/-- Embedding of `Scheduler._enqueue(job)`: create the completion handle,
start the `job` event dispatch (observable in the trace), register the
handle in the pending map before the dispatch settles (the pause/unpause
two-phase protocol), and chain the queue placement onto the dispatch's
settlement: the job reaches the backlog only when the `job` dispatch
succeeds, which the `jobDispatchOk` parameter abstracts. -/
def _enqueue (jobDispatchOk : Bool) (st : SchedState) (job : SJob) : SchedState :=
  { st with
    handleCounter := st.handleCounter + 1,
    trace := st.trace ++ [.jobDispatch job.port job.item st.handleCounter],
    pending := st.pending ++ [(st.handleCounter, job)],
    queue := if jobDispatchOk then st.queue ++ [(st.handleCounter, job)] else st.queue }

/-- Embedding of `Scheduler.send(item, port_out)`: assert the scheduler was
started; when stopped or when the outgoing port is not in the flowmap the
item is silently dropped; otherwise build `Job(port_in, port_in, item,
self.send)` and enqueue it. -/
def send (jobDispatchOk : Bool) (st : SchedState) (item portOut : Nat) :
    Except PyErr SchedState :=
  if st.queueTask = false then
    .error (.assertError "Must call start() before send()")
  else if st.stopped then .ok st
  else
    match st.flowmap.lookup portOut with
    | some portIn => .ok (_enqueue jobDispatchOk st ⟨portIn, portIn, item⟩)
    | none => .ok st

/-- Recursion of `drain` over the backlog (the list argument is always the
state's queue). -/
def drainAux : List (Nat × SJob) → SchedState → SchedState
  | [], st => st
  | (h, j) :: rest, st =>
      drainAux rest { st with
        queue := rest,
        trace := st.trace ++ [.exec j.handler j.item],
        pending := st.pending.filter fun pr => pr.1 != h }

/-- Cooperative draining of the JobQueue: execute backlog entries in FIFO
order; each execution invokes the job's handler with its item and settles
its completion handle, which pops it from the pending map. -/
def drain (st : SchedState) : SchedState := drainAux st.queue st

/-- Keyword parameters accepted by `EventDispatcher.dispatch` besides
`self`: `def dispatch(self, event, fail_mode=FailMode.RAISE)` declares no
other parameter and no `**kwargs`. -/
def dispatchKeywordParams : List String := ["event", "fail_mode"]

/-- Python keyword-call semantics: passing a keyword argument that names
no parameter of the callee raises `TypeError`. -/
def callWithKeywords (params : List String) (kwargs : List String) :
    Except PyErr Unit :=
  match kwargs.find? (fun kw => !(params.contains kw)) with
  | some kw => .error (.typeError kw)
  | none => .ok ()

/-- Embedding of `Scheduler.join`: set the stopped flag, cancel every
pending job (trapping cancellation outcomes), clear the backlog, wait for
queue termination and clear the pending map; then evaluate
`self.eventdispatcher.dispatch('join', logfails=True)` — a call that
raises `TypeError` because `dispatch` has no `logfails` parameter — so the
`detach` dispatch and the driver-state reset are never reached and the
deferred returned by `join` fails. -/
def join (st : SchedState) : Except PyErr Unit × SchedState :=
  (match callWithKeywords dispatchKeywordParams ["logfails"] with
   | .error e => .error e
   | .ok _ => .ok (),
   { st with stopped := true, queue := [], pending := [] })

/-- C7 fails on the code as stated: the claim says every call to `stop` —
first and later — returns the same reason, but the first call returns the
result of `Deferred.callback`, which is `None`, while a later call with the
same reason returns that reason, so the two calls observably differ. -/
theorem c7_stop_counterexample :
    (stop (mkSched []) 5).1 = none ∧
    (stop ((stop (mkSched []) 5).2) 5).1 = some 5 ∧
    (stop (mkSched []) 5).1 ≠ (stop ((stop (mkSched []) 5).2) 5).1 := by
  decide

/-- C7 amended: `stop` is idempotent on the state — the first call settles
the internal completion future with its reason, sets the stopped flag and
returns `None` (the return value of `Deferred.callback`); every later call
leaves the state untouched and returns its own reason argument; the future
is settled exactly once, with the first call's reason. -/
theorem c7_stop_idempotent (st : SchedState) (r1 r2 : Nat)
    (h : st.stopped = false) :
    (stop st r1).1 = none ∧
    (stop st r1).2.doneSettled = some r1 ∧
    (stop st r1).2.stopped = true ∧
    (stop (stop st r1).2 r2).1 = some r2 ∧
    (stop (stop st r1).2 r2).2 = (stop st r1).2 := by
  simp [stop, h]

/-- Witness for the amended C7 at a fresh scheduler with reasons 5 and 7. -/
theorem c7_stop_idempotent_witness :
    (mkSched []).stopped = false ∧
    ((stop (mkSched []) 5).1 = none ∧
     (stop (mkSched []) 5).2.doneSettled = some 5 ∧
     (stop (mkSched []) 5).2.stopped = true ∧
     (stop (stop (mkSched []) 5).2 7).1 = some 7 ∧
     (stop (stop (mkSched []) 5).2 7).2 = (stop (mkSched []) 5).2) :=
  ⟨rfl, c7_stop_idempotent (mkSched []) 5 7 rfl⟩

/-- C10: `send` on a scheduler that was never started (no queue task) fails
the assertion `Must call start() before send()` rather than silently
dropping the item; the silent drop — succeed with the state unchanged —
applies only to a started scheduler that is stopped or whose flowmap does
not contain the outgoing port. -/
theorem c10_send_asserts_before_start (st : SchedState) (item port : Nat)
    (ok : Bool) :
    (st.queueTask = false →
      send ok st item port = .error (.assertError "Must call start() before send()")) ∧
    (st.queueTask = true → st.stopped = true → send ok st item port = .ok st) ∧
    (st.queueTask = true → st.flowmap.lookup port = none →
      send ok st item port = .ok st) := by
  refine ⟨fun h => by simp [send, h], fun h1 h2 => by simp [send, h1, h2], ?_⟩
  intro h1 h2
  by_cases hstop : st.stopped
  · simp [send, h1, hstop]
  · simp [send, h1, hstop, h2]

/-- Witness for C10: a never-started scheduler asserts; a started-stopped
one and a started one with an unmatched port silently drop. -/
theorem c10_send_asserts_before_start_witness :
    send true (mkSched [(1, 2)]) 42 1 =
      .error (.assertError "Must call start() before send()") ∧
    send true ⟨[(1, 2)], true, true, none, [], [], 0, []⟩ 42 1 =
      .ok ⟨[(1, 2)], true, true, none, [], [], 0, []⟩ ∧
    send true ⟨[(1, 2)], true, false, none, [], [], 0, []⟩ 42 3 =
      .ok ⟨[(1, 2)], true, false, none, [], [], 0, []⟩ :=
  ⟨(c10_send_asserts_before_start (mkSched [(1, 2)]) 42 1 true).1 rfl,
   (c10_send_asserts_before_start ⟨[(1, 2)], true, true, none, [], [], 0, []⟩
      42 1 true).2.1 rfl rfl,
   (c10_send_asserts_before_start ⟨[(1, 2)], true, false, none, [], [], 0, []⟩
      42 3 true).2.2 rfl rfl⟩

/-- C5: on a started, non-stopped scheduler whose flowmap maps outgoing
port `A` to incoming port `B`, with an empty backlog and no prior events,
one `send(item, A)` whose `job` dispatch succeeds produces exactly one
`job` event dispatch carrying the built job (destination `B`, the item)
and its completion handle, and draining the queue then executes `B`'s
handler with the item exactly once, after the dispatch. -/
theorem c5_send_dispatch_then_exec (st : SchedState) (A B item : Nat)
    (hstart : st.queueTask = true) (hstop : st.stopped = false)
    (hmap : st.flowmap.lookup A = some B)
    (hq : st.queue = []) (htr : st.trace = []) :
    send true st item A = .ok (_enqueue true st ⟨B, B, item⟩) ∧
    (_enqueue true st ⟨B, B, item⟩).trace =
      [SchedEv.jobDispatch B item st.handleCounter] ∧
    (drain (_enqueue true st ⟨B, B, item⟩)).trace =
      [SchedEv.jobDispatch B item st.handleCounter, SchedEv.exec B item] := by
  refine ⟨by simp [send, hstart, hstop, hmap], by simp [_enqueue, htr], ?_⟩
  simp [drain, drainAux, _enqueue, hq, htr]

/-- Witness for C5 on the concrete flowmap `{1 ↦ 2}` with item 42. -/
theorem c5_send_dispatch_then_exec_witness :
    send true ⟨[(1, 2)], true, false, none, [], [], 0, []⟩ 42 1 =
      .ok (_enqueue true ⟨[(1, 2)], true, false, none, [], [], 0, []⟩ ⟨2, 2, 42⟩) ∧
    (drain (_enqueue true ⟨[(1, 2)], true, false, none, [], [], 0, []⟩ ⟨2, 2, 42⟩)).trace =
      [SchedEv.jobDispatch 2 42 0, SchedEv.exec 2 42] :=
  ⟨(c5_send_dispatch_then_exec ⟨[(1, 2)], true, false, none, [], [], 0, []⟩
      1 2 42 rfl rfl rfl rfl rfl).1,
   (c5_send_dispatch_then_exec ⟨[(1, 2)], true, false, none, [], [], 0, []⟩
      1 2 42 rfl rfl rfl rfl rfl).2.2⟩

/-- C6 fails on the code: `join` evaluates
`dispatch('join', logfails=True)`, but `EventDispatcher.dispatch` accepts
only `event` and `fail_mode`, so the call raises `TypeError` — the
deferred returned by `join` therefore always fails instead of logging and
suppressing dispatch failures, and neither `join` nor `detach` is ever
dispatched. -/
theorem c6_join_always_fails (st : SchedState) :
    (join st).1 = .error (.typeError "logfails") := rfl

/-- Witness-style evaluation for C6 at a concrete started scheduler. -/
theorem c6_join_always_fails_witness :
    (join ⟨[(1, 2)], true, false, none, [], [], 0, []⟩).1 =
      .error (.typeError "logfails") :=
  c6_join_always_fails ⟨[(1, 2)], true, false, none, [], [], 0, []⟩

/-! JobQueue model.

Modelled from the spec: `spreadflow_core/jobqueue.py` is not among the
provided sources — only its test suite `test/test_jobqueue.py` is — so the
queue is modelled from the specification's words: `put(channel, job,
*args, **kwds)` appends an entry to the FIFO backlog and returns a
cancelable completion handle; canceling a handle before its item executes
removes it from the backlog so it never runs; the step-wise iteration
protocol executes the head of the backlog, one entry per step. -/

/-- Backlog entry: channel, callable, stored positional and keyword
arguments, and the completion handle returned by `put`. -/
structure QEntry where
  channel : Nat
  job : Nat
  args : List Nat
  kwds : List (Nat × Nat)
  handle : Nat
deriving DecidableEq, Repr

/-- Queue state: handle counter, backlog, and the executed-entry trace (an
entry in the trace is one invocation of its job with its stored args). -/
structure QState where
  counter : Nat
  backlog : List QEntry
  executed : List QEntry
deriving DecidableEq, Repr

/-- Client operations on the queue before it is drained. -/
inductive QOp where
  | put (channel job : Nat) (args : List Nat) (kwds : List (Nat × Nat))
  | cancel (handle : Nat)

/-- Modelled from the spec: `put` appends to the FIFO backlog and hands out
a fresh completion handle; canceling a handle before execution removes the
entry from the backlog (a cancel naming no backlog entry changes
nothing). -/
def qApply (s : QState) : QOp → QState
  | .put c j a k =>
      { s with counter := s.counter + 1,
               backlog := s.backlog ++ [⟨c, j, a, k, s.counter⟩] }
  | .cancel h => { s with backlog := s.backlog.filter fun e => e.handle != h }

/-- Recursion of `qDrain` over the backlog (the list argument is always
the state's backlog). -/
def qDrainAux : List QEntry → QState → QState
  | [], s => s
  | e :: rest, s => qDrainAux rest { s with backlog := rest, executed := s.executed ++ [e] }

/-- Modelled from the spec: step-wise iteration executes backlog entries
one at a time from the front until the backlog is empty. -/
def qDrain (s : QState) : QState := qDrainAux s.backlog s

/-- Check whether the operation sequence cancels the given handle. -/
def canceledIn (ops : List QOp) (h : Nat) : Bool :=
  ops.any fun op =>
    match op with
    | .cancel h' => h' == h
    | _ => false

/-- Specification-side expectation: the puts of the operation sequence, in
put order and with their stored arguments, excluding those whose handle a
later operation cancels. -/
def qExpectedAux : List QOp → Nat → List QEntry
  | [], _ => []
  | .put c j a k :: rest, n =>
      if canceledIn rest n then qExpectedAux rest (n + 1)
      else ⟨c, j, a, k, n⟩ :: qExpectedAux rest (n + 1)
  | .cancel _ :: rest, n => qExpectedAux rest n

theorem qFold_executed :
    ∀ (ops : List QOp) (s : QState), (ops.foldl qApply s).executed = s.executed := by
  intro ops
  induction ops with
  | nil => intro s; rfl
  | cons op rest ih =>
    intro s
    rw [List.foldl_cons, ih]
    cases op <;> rfl

theorem qFold_backlog :
    ∀ (ops : List QOp) (s : QState),
      (ops.foldl qApply s).backlog =
        s.backlog.filter (fun e => !(canceledIn ops e.handle)) ++
          qExpectedAux ops s.counter := by
  intro ops
  induction ops with
  | nil =>
    intro s
    simp [canceledIn, qExpectedAux]
  | cons op rest ih =>
    intro s
    cases op with
    | put c j a k =>
      rw [List.foldl_cons, ih]
      show (s.backlog ++ [(⟨c, j, a, k, s.counter⟩ : QEntry)]).filter
          (fun e => !canceledIn rest e.handle) ++
          qExpectedAux rest (s.counter + 1) = _
      rw [List.filter_append]
      simp only [qExpectedAux]
      cases hc : canceledIn rest s.counter with
      | true =>
        simp only [List.filter_cons, List.filter_nil, hc, Bool.not_true,
          Bool.false_eq_true, ite_false, ite_true, List.append_nil]
        rfl
      | false =>
        simp only [List.filter_cons, List.filter_nil, hc, Bool.not_false,
          ite_true, ite_false, List.append_assoc, List.singleton_append]
        rfl
    | cancel h =>
      rw [List.foldl_cons, ih]
      show (s.backlog.filter fun e => e.handle != h).filter _ ++
          qExpectedAux rest s.counter = _
      simp only [qExpectedAux]
      congr 1
      rw [List.filter_filter]
      refine List.filter_congr fun e _ => ?_
      have hcan2 : canceledIn (QOp.cancel h :: rest) e.handle =
          ((h == e.handle) || canceledIn rest e.handle) := by
        simp [canceledIn]
      rw [hcan2]
      by_cases hh : e.handle = h
      · simp [bne, beq_iff_eq, hh]
      · have hh' : ¬ h = e.handle := fun he => hh he.symm
        have hb1 : (e.handle == h) = false := beq_eq_false_iff_ne.mpr hh
        have hb2 : (h == e.handle) = false := beq_eq_false_iff_ne.mpr hh'
        simp [bne, hb1, hb2]

theorem qDrainAux_spec :
    ∀ (bl : List QEntry) (s : QState), s.backlog = bl →
      (qDrainAux bl s).executed = s.executed ++ bl ∧
      (qDrainAux bl s).backlog = [] := by
  intro bl
  induction bl with
  | nil =>
    intro s hs
    exact ⟨by simp [qDrainAux], by simp [qDrainAux, hs]⟩
  | cons e rest ih =>
    intro s _
    have := ih { s with backlog := rest, executed := s.executed ++ [e] } rfl
    simp only [qDrainAux]
    exact ⟨by rw [this.1]; simp, this.2⟩

/-- C9 (spec-modelled): for every sequence of puts and pre-execution
cancels, draining the queue executes exactly the non-canceled puts, in put
order, each exactly once and with the positional and keyword arguments
stored at put time — so an entry put after N earlier puts runs strictly
after all N earlier non-canceled entries. -/
theorem c9_jobqueue_fifo (ops : List QOp) :
    (qDrain (ops.foldl qApply ⟨0, [], []⟩)).executed = qExpectedAux ops 0 ∧
    (qDrain (ops.foldl qApply ⟨0, [], []⟩)).backlog = [] := by
  have hb := qFold_backlog ops ⟨0, [], []⟩
  simp only [List.filter_nil, List.nil_append] at hb
  have hd := qDrainAux_spec (ops.foldl qApply ⟨0, [], []⟩).backlog
    (ops.foldl qApply ⟨0, [], []⟩) rfl
  have he := qFold_executed ops ⟨0, [], []⟩
  refine ⟨?_, hd.2⟩
  have h1 : (qDrain (ops.foldl qApply ⟨0, [], []⟩)).executed =
      (ops.foldl qApply (⟨0, [], []⟩ : QState)).executed ++
        (ops.foldl qApply (⟨0, [], []⟩ : QState)).backlog := hd.1
  rw [he, hb] at h1
  exact h1.trans (List.nil_append _)

end Spreadflow
